import Mathlib

/-!
Verification of the reverse-proxy load balancer (go-cloud-camp-2025-test-assignment).

This file shallowly embeds the parts of the Go source that the claims C1..C10
are about and proves or refutes each claim:

* the two `Storage.TakeTokens` implementations
  (`internal/storage/memory.go` and the Lua script in `internal/storage/redis.go`);
* the token-bucket rate limiter `Allow` / `getClientConfig` / `UpdateClientConfig`
  and the `ClientManager` delete handler (`internal/ratelimit`);
* the proxy request gate of `Proxy.ServeHTTP` (`internal/proxy`);
* the health-check verdict handling (`HTTPHealthChecker.Check` composed with
  `StartHealthChecks`);
* the round-robin and least-connections balancers and the balancer factory
  (`internal/balancer`);
* the two `getClientIP` helpers (proxy package and ratelimit package).

Machine integers are modelled as `Int`/`Nat`; wall-clock instants are integer
milliseconds.  Go `map` values are modelled as association lists.
-/

namespace LB

/-! ## Storage: token buckets (memory.go / redis.go) -/

/-- One stored token bucket: `tokens` plus its `lastRefill` timestamp
(integer milliseconds). -/
structure Bucket where
  tokens : Int
  lastRefill : Int
  deriving Repr, DecidableEq

/-- Result of a `TakeTokens` call: the returned `(allowed, remaining)` pair and
the bucket state left in the store. -/
structure TakeResult where
  allowed : Bool
  remaining : Int
  bucket : Bucket
  deriving Repr, DecidableEq

/-- `MemoryStorage.TakeTokens` (memory.go, lines 32-62) acting on the single
key's bucket (`none` = key not yet present).  Elapsed time is in milliseconds;
Go computes `int(elapsedSeconds * float64(refillRate))`, i.e. truncation toward
zero, which over integer milliseconds is `(elapsedMs * refillRate).tdiv 1000`.
The bucket is refilled (and `lastRefill` advanced) only when `tokensToAdd > 0`. -/
def memTakeTokens (b? : Option Bucket) (now n capacity refillRate : Int) : TakeResult :=
  let b : Bucket :=
    match b? with
    | none => { tokens := capacity, lastRefill := now }
    | some b =>
      let elapsedMs := now - b.lastRefill
      let tokensToAdd := (elapsedMs * refillRate).tdiv 1000
      if 0 < tokensToAdd then
        { tokens := min capacity (b.tokens + tokensToAdd), lastRefill := now }
      else b
  if n ≤ b.tokens then
    { allowed := true, remaining := b.tokens - n, bucket := { b with tokens := b.tokens - n } }
  else
    { allowed := false, remaining := b.tokens, bucket := b }

/-- The Lua token-bucket script of redis.go (lines 31-62) acting on the single
key's hash (`none` = key not yet present).  Note that the script executes
`HSET key lastRefill now` unconditionally, so `lastRefill` is advanced on every
call, even when `tokensToAdd = 0`. -/
def redisTakeTokens (b? : Option Bucket) (now n capacity refillRate : Int) : TakeResult :=
  let tokens0 : Int := (b?.map Bucket.tokens).getD capacity
  let lastRefill0 : Int := (b?.map Bucket.lastRefill).getD now
  let elapsed := max 0 (now - lastRefill0)
  let tokensToAdd := min (capacity - tokens0) ((elapsed * refillRate).fdiv 1000)
  let tokens1 := min capacity (tokens0 + tokensToAdd)
  let allowed : Bool := decide (n ≤ tokens1)
  let tokens2 := if allowed then tokens1 - n else tokens1
  { allowed := allowed, remaining := tokens2, bucket := { tokens := tokens2, lastRefill := now } }

/-- One `TakeTokens` call of a sequence: its wall-clock instant (ms) and the
`(n, capacity, refillRate)` arguments. -/
structure TakeCall where
  now : Int
  n : Int
  capacity : Int
  refillRate : Int
  deriving Repr, DecidableEq

/-- Run a sequence of `MemoryStorage.TakeTokens` calls against one key,
returning the result of every call. -/
def memRun (b? : Option Bucket) : List TakeCall → List TakeResult
  | [] => []
  | c :: cs =>
    let r := memTakeTokens b? c.now c.n c.capacity c.refillRate
    r :: memRun (some r.bucket) cs

/-- Run a sequence of Redis-script `TakeTokens` calls against one key,
returning the result of every call. -/
def redisRun (b? : Option Bucket) : List TakeCall → List TakeResult
  | [] => []
  | c :: cs =>
    let r := redisTakeTokens b? c.now c.n c.capacity c.refillRate
    r :: redisRun (some r.bucket) cs

/-- A call whose arguments are in the domain the spec prescribes for callers:
a non-negative token demand and positive capacity and refill rate. -/
def GoodCall (c : TakeCall) : Prop :=
  0 ≤ c.n ∧ 0 < c.capacity ∧ 0 ≤ c.refillRate

instance : DecidablePred GoodCall := fun c => by unfold GoodCall; infer_instance

/-- The capacities passed for the key never go below `bound` and never
decrease along the sequence. -/
def CapsFrom (bound : Int) : List TakeCall → Prop
  | [] => True
  | c :: cs => bound ≤ c.capacity ∧ CapsFrom c.capacity cs

instance : ∀ (bound : Int) (l : List TakeCall), Decidable (CapsFrom bound l)
  | _, [] => by unfold CapsFrom; infer_instance
  | bound, c :: cs =>
    have : Decidable (CapsFrom c.capacity cs) := instDecidableCapsFrom c.capacity cs
    by unfold CapsFrom; infer_instance

/-! ## Rate limiter (internal/ratelimit/tokenbucket.go) over the in-process store -/

/-- A per-client rate-limit configuration `(capacity, refillRate)`. -/
structure ClientConfig where
  capacity : Int
  refillRate : Int
  deriving Repr, DecidableEq

/-- Association-list update: set key `k` to `v`, removing any older binding. -/
def setA {α : Type} (k : String) (v : α) (l : List (String × α)) : List (String × α) :=
  (k, v) :: l.filter (fun p => ¬(p.1 = k))

/-- Association-list delete: remove every binding of key `k`. -/
def delA {α : Type} (k : String) (l : List (String × α)) : List (String × α) :=
  l.filter (fun p => ¬(p.1 = k))

/-- The two maps held by `MemoryStorage` (memory.go): token buckets and stored
client configs. -/
structure MemStore where
  buckets : List (String × Bucket)
  configs : List (String × ClientConfig)
  deriving Repr, DecidableEq

/-- `MemoryStorage.GetClientConfig` (memory.go, lines 64-74): `(0,0)` is the
sentinel for an absent entry. -/
def storeGetClientConfig (s : MemStore) (k : String) : ClientConfig :=
  match List.lookup k s.configs with
  | none => { capacity := 0, refillRate := 0 }
  | some c => c

/-- `MemoryStorage.SetClientConfig` (memory.go, lines 76-91): writing `(0,0)`
deletes the entry. -/
def storeSetClientConfig (s : MemStore) (k : String) (capacity refillRate : Int) : MemStore :=
  if capacity = 0 ∧ refillRate = 0 then
    { s with configs := delA k s.configs }
  else
    { s with configs := setA k { capacity := capacity, refillRate := refillRate } s.configs }

/-- The `TokenBucketRateLimiter` in-process state: the default config and the
read-through cache `clients`. -/
structure Limiter where
  defaultConfig : ClientConfig
  cache : List (String × ClientConfig)
  deriving Repr, DecidableEq

/-- `TokenBucketRateLimiter.getClientConfig` (tokenbucket.go, lines 92-119):
cache hit wins; on miss read through storage, fall back to the default when
storage reports `capacity = 0` or `refillRate = 0`, then cache the resolved
pair.  The memory store itself never fails, so no error case arises. -/
def getClientConfig (tb : Limiter) (s : MemStore) (k : String) : ClientConfig × Limiter :=
  match List.lookup k tb.cache with
  | some c => (c, tb)
  | none =>
    let c0 := storeGetClientConfig s k
    let c := if c0.capacity = 0 ∨ c0.refillRate = 0 then tb.defaultConfig else c0
    (c, { tb with cache := setA k c tb.cache })

/-- Error values surfaced by the rate limiter. -/
inductive RLError where
  | rateLimitExceeded
  | invalidArgument
  deriving Repr, DecidableEq

/-- The `(allowed, remaining, err)` triple returned by `Allow`. -/
structure AllowResult where
  allowed : Bool
  remaining : Int
  error : Option RLError
  deriving Repr, DecidableEq

/-- `TokenBucketRateLimiter.Allow` (tokenbucket.go, lines 54-90) over the
in-process store.  `tokens ≤ 0` returns `(true, 0, nil)` before any storage
access; a denied take returns `allowed = false` together with
`ErrRateLimitExceeded`. -/
def allow (tb : Limiter) (s : MemStore) (k : String) (tokens : Int) (now : Int) :
    AllowResult × Limiter × MemStore :=
  if tokens ≤ 0 then
    ({ allowed := true, remaining := 0, error := none }, tb, s)
  else
    let rc := getClientConfig tb s k
    let r := memTakeTokens (List.lookup k s.buckets) now tokens rc.1.capacity rc.1.refillRate
    let s' := { s with buckets := setA k r.bucket s.buckets }
    if r.allowed then
      ({ allowed := true, remaining := r.remaining, error := none }, rc.2, s')
    else
      ({ allowed := false, remaining := r.remaining, error := some .rateLimitExceeded }, rc.2, s')

/-- `TokenBucketRateLimiter.UpdateClientConfig` (tokenbucket.go, lines 121-145):
validates positivity, writes through storage, then updates the cache. -/
def updateClientConfig (tb : Limiter) (s : MemStore) (k : String) (capacity refillRate : Int) :
    Except RLError (Limiter × MemStore) :=
  if capacity ≤ 0 ∨ refillRate ≤ 0 then
    .error .invalidArgument
  else
    let s' := storeSetClientConfig s k capacity refillRate
    let tb' := { tb with cache := setA k { capacity := capacity, refillRate := refillRate } tb.cache }
    .ok (tb', s')

instance {ε α : Type} [DecidableEq ε] [DecidableEq α] : DecidableEq (Except ε α) :=
  fun a b =>
    match a, b with
    | .ok x, .ok y => decidable_of_iff (x = y) (by simp)
    | .error x, .error y => decidable_of_iff (x = y) (by simp)
    | .ok _, .error _ => isFalse (by simp)
    | .error _, .ok _ => isFalse (by simp)

/-- `ClientManager.HandleDeleteClient` (the DELETE /clients handler): it calls
`storage.SetClientConfig(clientID, 0, 0)` and nothing else — in particular the
limiter's cache is left untouched. -/
def handleDeleteClient (tb : Limiter) (s : MemStore) (k : String) : Limiter × MemStore :=
  (tb, storeSetClientConfig s k 0 0)

/-! ## Proxy rate-limit gate (internal/proxy, `Proxy.ServeHTTP`) -/

/-- Outcome of the rate-limit section at the top of `Proxy.ServeHTTP`:
the `statusCode` variable recorded for the request log, the status actually
written to the client so far (0 = nothing written), the response headers set on
the rate-limit path, and whether the handler proceeds to backend selection. -/
structure GateDecision where
  statusCode : Nat
  wroteStatus : Nat
  headers : List (String × String)
  proceed : Bool
  deriving Repr, DecidableEq

/-- The rate-limit gate of `Proxy.ServeHTTP` (proxy package): with a rate
limiter configured, `err != nil` is checked first (statusCode 500, response
written by the default error handler: 503 Service Unavailable); only when
`err = nil` and `allowed = false` would it set `X-RateLimit-Remaining` and
`Retry-After: 1` and write 429; otherwise it proceeds with statusCode still at
its initial 200. -/
def serveRateLimitGate (res : AllowResult) : GateDecision :=
  if res.error.isSome then
    { statusCode := 500, wroteStatus := 503, headers := [], proceed := false }
  else if res.allowed = false then
    { statusCode := 429, wroteStatus := 429,
      headers := [("X-RateLimit-Remaining", toString res.remaining), ("Retry-After", "1")],
      proceed := false }
  else
    { statusCode := 200, wroteStatus := 0, headers := [], proceed := true }

/-! ## Health checking (HTTPHealthChecker.Check + StartHealthChecks) -/

/-- The health-relevant per-backend state: the atomic `IsAlive` flag and the
atomic `FailureCount`. -/
structure BackendHealth where
  isAlive : Bool
  failureCount : Nat
  deriving Repr, DecidableEq

/-- Probe outcome as seen by `HTTPHealthChecker.Check`: `ok` = the GET
succeeded with status 2xx/3xx; `fail` = transport error or any other status. -/
inductive ProbeVerdict where
  | ok
  | fail
  deriving Repr, DecidableEq

/-- `HTTPHealthChecker.Check` (health package): on a successful probe it
returns true without touching the backend; on a failed probe, if the backend
is available it increments `FailureCount` and returns false only once the
count reaches `threshold`, true below it; if the backend is already down it
returns false. Returns the verdict together with the mutated backend state. -/
def httpCheck (threshold : Nat) (b : BackendHealth) (v : ProbeVerdict) : Bool × BackendHealth :=
  match v with
  | .ok => (true, b)
  | .fail =>
    if b.isAlive then
      let b' : BackendHealth := { b with failureCount := b.failureCount + 1 }
      if threshold ≤ b'.failureCount then (false, b') else (true, b')
    else (false, b)

/-- `Backend.MarkUp`: sets `IsAlive` and resets `FailureCount` to zero. -/
def markUp (_b : BackendHealth) : BackendHealth :=
  { isAlive := true, failureCount := 0 }

/-- `Backend.MarkDown`: clears `IsAlive`; `FailureCount` is left as is. -/
def markDown (b : BackendHealth) : BackendHealth :=
  { b with isAlive := false }

/-- One tick of `StartHealthChecks` for one backend: run the checker and then
`MarkBackendUp` on a healthy verdict, `MarkBackendDown` otherwise. -/
def healthTick (threshold : Nat) (b : BackendHealth) (v : ProbeVerdict) : BackendHealth :=
  let r := httpCheck threshold b v
  if r.1 then markUp r.2 else markDown r.2

/-- The health loop driven by a given sequence of probe verdicts. -/
def healthTicks (threshold : Nat) (b : BackendHealth) (vs : List ProbeVerdict) : BackendHealth :=
  vs.foldl (healthTick threshold) b

/-! ## Client IP extraction (proxy.getClientIP and ratelimit.getClientIP) -/

/-- The request data consulted by `getClientIP`: the `X-Forwarded-For` and
`X-Real-IP` header values (Go's `Header.Get` returns `""` when the header is
absent) and `Request.RemoteAddr`. -/
structure Request where
  xff : String
  xRealIP : String
  remoteAddr : String
  deriving Repr, DecidableEq

/-- The ASCII white-space characters trimmed by `strings.TrimSpace`
(the inputs here are ASCII header values). -/
def goIsSpace (c : Char) : Bool :=
  c = ' ' ∨ c = '\t' ∨ c = '\n' ∨ c = '\r'

/-- `strings.TrimSpace` on ASCII strings. -/
def trimSpace (s : String) : String :=
  ⟨((s.toList.dropWhile goIsSpace).reverse.dropWhile goIsSpace).reverse⟩

/-- `strings.Split(s, ",")[0]`: the prefix of `s` before its first comma
(`s` itself when it has none). -/
def firstCommaEntry (s : String) : String :=
  ⟨s.toList.takeWhile (fun c => ¬(c = ','))⟩

/-- Modelled from Go's standard `net.SplitHostPort` on bracket-free addresses:
split at the last colon; no colon at all, a colon left in the host part, or a
bracket anywhere is an error (`none`).  Bracketed IPv6 literals are outside the
modelled fragment. -/
def splitHostPort (s : String) : Option (String × String) :=
  let l := s.toList
  if l.contains '[' ∨ l.contains ']' then none
  else
    match (List.range l.length).filter (fun i => l.get? i = some ':') |>.getLast? with
    | none => none
    | some i =>
      let host := l.take i
      let port := l.drop (i + 1)
      if host.contains ':' then none else some (⟨host⟩, ⟨port⟩)

/-- `getClientIP` of the proxy package (used for the rate-limit gate):
first comma-separated entry of `X-Forwarded-For` trimmed of spaces, else
`X-Real-IP`, else the host portion of `RemoteAddr` (the raw `RemoteAddr` when
`SplitHostPort` fails). -/
def proxyGetClientIP (r : Request) : String :=
  if ¬(r.xff = "") then
    trimSpace (firstCommaEntry r.xff)
  else if ¬(r.xRealIP = "") then
    r.xRealIP
  else
    match splitHostPort r.remoteAddr with
    | some hp => hp.1
    | none => r.remoteAddr

/-- `getClientIP` of the ratelimit package (used by the `/client-status`
handler): returns the whole `X-Forwarded-For` value — no comma splitting —
else `X-Real-IP`, else the host portion of `RemoteAddr`. -/
def ratelimitGetClientIP (r : Request) : String :=
  if ¬(r.xff = "") then
    r.xff
  else if ¬(r.xRealIP = "") then
    r.xRealIP
  else
    match splitHostPort r.remoteAddr with
    | some hp => hp.1
    | none => r.remoteAddr

/-- The client-id derivation as the spec words it (spec §4.6 step 1 /
scenario 6): the first comma-separated entry of `X-Forwarded-For` when
present, else `X-Real-IP`, else the host portion of the remote address.
This is the spec-side definition against which the two source helpers are
compared. -/
def specClientId (r : Request) : String :=
  if ¬(r.xff = "") then
    trimSpace (firstCommaEntry r.xff)
  else if ¬(r.xRealIP = "") then
    r.xRealIP
  else
    match splitHostPort r.remoteAddr with
    | some hp => hp.1
    | none => r.remoteAddr

/-! ## Round-robin balancer (internal/balancer/roundrobin.go) -/

/-- Two's-complement wrap-around of Go's `atomic.Int64.Add`. -/
def int64Wrap (x : Int) : Int :=
  (x + 2 ^ 63) % 2 ^ 64 - 2 ^ 63

/-- `RoundRobinBalancer.NextBackend` over a fixed healthy snapshot: if the
snapshot is empty, `ErrNoBackends` (no cursor movement); else increment the
int64 cursor and index the snapshot at `cursor % len` (Go's `%` truncates, so
a negative cursor would produce a negative index — an index panic, modelled as
`none`).  Returns the selected backend and the new cursor. -/
def rrNextBackend (healthy : List String) (cur : Int) : Option String × Int :=
  if healthy.isEmpty then (none, cur)
  else
    let next := int64Wrap (cur + 1)
    let idx := next.tmod healthy.length
    (if 0 ≤ idx then healthy.get? idx.toNat else none, next)

/-- `n` consecutive `NextBackend` calls over a stable healthy snapshot,
returning the selected sequence and the final cursor. -/
def rrCalls (healthy : List String) : Nat → Int → List (Option String) × Int
  | 0, cur => ([], cur)
  | n + 1, cur =>
    let step := rrNextBackend healthy cur
    let rest := rrCalls healthy n step.2
    (step.1 :: rest.1, rest.2)

/-! ## Least-connections balancer -/

/-- A healthy backend as seen by `LeastConnectionsBalancer.NextBackend`:
its URL and the `ActiveConns` counter snapshot. -/
structure LCBackend where
  url : String
  activeConns : Int
  deriving Repr, DecidableEq

/-- `LeastConnectionsBalancer.NextBackend` over a healthy snapshot: start from
index 0 and replace the running minimum only on a strictly smaller
`ActiveConns`, so ties keep the earlier backend. -/
def lcNextBackend (healthy : List LCBackend) : Option LCBackend :=
  match healthy with
  | [] => none
  | b0 :: rest =>
    some (rest.foldl (fun best b => if b.activeConns < best.activeConns then b else best) b0)

/-- Spec-side predicate: `x` attains the minimum `activeConns` over the
snapshot `l`. -/
def isMinIn (l : List LCBackend) (x : LCBackend) : Bool :=
  l.all (fun c => decide (x.activeConns ≤ c.activeConns))

/-! ## Balancer factory (BalancerFactory / NewBackend) -/

/-- The backend-construction loop of `BalancerFactory`: `NewBackend` parses
each configured URL; a parse failure is logged and skipped (`continue`), a
success appends the backend in configuration order.  `url.Parse` is passed in
as an oracle `parse`. -/
def factoryBackends (parse : String → Option String) : List String → List String
  | [] => []
  | u :: rest =>
    match parse u with
    | none => factoryBackends parse rest
    | some b => b :: factoryBackends parse rest

/-- Result of `BalancerFactory`: a balancer of the named algorithm over the
registered backends, or `ErrNoValidBackends`. -/
inductive FactoryResult where
  | ok (algorithm : String) (backends : List String)
  | noValidBackends
  deriving Repr, DecidableEq

/-- The algorithm dispatch of `BalancerFactory`: the three recognized names
select themselves; an unknown name is logged and falls back to round_robin. -/
def algorithmName (algorithm : String) : String :=
  match algorithm with
  | "round_robin" => "round_robin"
  | "least_connections" => "least_connections"
  | "random" => "random"
  | _ => "round_robin"

/-- `BalancerFactory` (balancer package): build the backend list, fail with
`ErrNoValidBackends` when it is empty, otherwise build the selected balancer
over the registered backends. -/
def balancerFactory (parse : String → Option String) (backendUrls : List String)
    (algorithm : String) : FactoryResult :=
  let backends := factoryBackends parse backendUrls
  if backends.isEmpty then .noValidBackends
  else .ok (algorithmName algorithm) backends

/-! ## Claim theorems -/

/-- C1.  The claim says a denied rate-limit check yields a 429 response with
`X-RateLimit-Remaining` and `Retry-After: 1`, with 500 reserved for storage
errors.  The code disagrees: `Allow` returns `ErrRateLimitExceeded` together
with `allowed = false`, and `Proxy.ServeHTTP` tests `err != nil` before
`!allowed`, so a denial takes the infrastructure-error branch — statusCode 500,
response written by the default error handler (503) — and the 429 branch with
the two headers is unreachable.  Shown on a concrete exhausted bucket
(capacity 1, zero tokens left, no elapsed time). -/
theorem proxy_denial_takes_error_branch :
    (allow ⟨⟨1, 1⟩, [("c", ⟨1, 1⟩)]⟩ ⟨[("c", ⟨0, 0⟩)], []⟩ "c" 1 0).1 =
      ⟨false, 0, some .rateLimitExceeded⟩ ∧
    serveRateLimitGate ⟨false, 0, some .rateLimitExceeded⟩ =
      ⟨500, 503, [], false⟩ ∧
    ¬(serveRateLimitGate ⟨false, 0, some .rateLimitExceeded⟩).statusCode = 429 := by
  decide

/-- C2.  The claim says that starting from UP with threshold 3 the verdict
sequence {ok, fail, fail, fail} leaves the backend DOWN after the fourth
tick.  In the code, a below-threshold failing probe makes
`HTTPHealthChecker.Check` return true, whereupon `StartHealthChecks` calls
`MarkBackendUp`, which resets `FailureCount` to 0 — so consecutive failures
never accumulate and the backend stays UP with failure count 0 after those
four ticks; indeed from the (UP, 0) state no verdict sequence whatsoever can
bring the backend DOWN through the health loop. -/
theorem health_loop_failures_never_accumulate :
    healthTicks 3 ⟨true, 0⟩ [.ok, .fail, .fail, .fail] = ⟨true, 0⟩ ∧
    ∀ vs : List ProbeVerdict, healthTicks 3 ⟨true, 0⟩ vs = ⟨true, 0⟩ := by
  refine ⟨by decide, ?_⟩
  intro vs
  induction vs with
  | nil => rfl
  | cons v vs ih =>
    have hstep : healthTick 3 ⟨true, 0⟩ v = ⟨true, 0⟩ := by cases v <;> decide
    simpa [healthTicks, List.foldl_cons, hstep] using ih

/-- C3 counterexample.  The claim says `Allow(ctx, id, n)` with `n ≤ 0` returns
the client's current remaining token count; at a state where the client's
bucket currently holds 5 tokens, `Allow` with `n = 0` returns remaining 0,
not 5. -/
theorem allow_zero_tokens_remaining_counterexample :
    (allow ⟨⟨50, 10⟩, []⟩ ⟨[("c", ⟨5, 123⟩)], []⟩ "c" 0 123).1.remaining = 0 ∧
    List.lookup "c" ([("c", (⟨5, 123⟩ : Bucket))]) = some ⟨5, 123⟩ ∧
    ¬((0 : Int) = 5) := by
  decide

/-- C3 amended.  For every `n ≤ 0`, `Allow` returns `(true, 0, nil)`
immediately, leaving both the limiter cache and the storage (in particular the
client's token bucket) untouched. -/
theorem allow_nonpositive_returns_zero_without_mutation
    (tb : Limiter) (s : MemStore) (k : String) (n now : Int) (h : n ≤ 0) :
    allow tb s k n now = (⟨true, 0, none⟩, tb, s) := by
  unfold allow
  rw [if_pos h]

/-- C3 witness: the amended theorem applied at a concrete state whose bucket
holds 5 tokens. -/
theorem allow_nonpositive_witness :
    (0 : Int) ≤ 0 ∧
    allow ⟨⟨50, 10⟩, []⟩ ⟨[("c", ⟨5, 123⟩)], []⟩ "c" 0 123 =
      (⟨true, 0, none⟩, ⟨⟨50, 10⟩, []⟩, ⟨[("c", ⟨5, 123⟩)], []⟩) :=
  ⟨by decide,
   allow_nonpositive_returns_zero_without_mutation
     ⟨⟨50, 10⟩, []⟩ ⟨[("c", ⟨5, 123⟩)], []⟩ "c" 0 123 (by decide)⟩

/-- C4.  The claim says both `TakeTokens` implementations compute the same
results and leave `last_refill` unchanged when the computed token addition is
zero.  The Lua script in redis.go executes `HSET key lastRefill now`
unconditionally, so fractional refill time is lost: with capacity 10,
refill rate 1/s and calls taking 10 @ 0 ms, 1 @ 500 ms, 1 @ 1000 ms, the
in-process store leaves `last_refill` at 0 after the second call
(`add = 0`) and allows the third call, while the Redis script advances
`last_refill` to 500 on that same call and still denies the third. -/
theorem memory_redis_take_divergence :
    (memRun none [⟨0, 10, 10, 1⟩, ⟨500, 1, 10, 1⟩, ⟨1000, 1, 10, 1⟩]).map
        (fun r => (r.allowed, r.remaining)) =
      [(true, 0), (false, 0), (true, 0)] ∧
    (redisRun none [⟨0, 10, 10, 1⟩, ⟨500, 1, 10, 1⟩, ⟨1000, 1, 10, 1⟩]).map
        (fun r => (r.allowed, r.remaining)) =
      [(true, 0), (false, 0), (false, 0)] ∧
    ((memRun none [⟨0, 10, 10, 1⟩, ⟨500, 1, 10, 1⟩, ⟨1000, 1, 10, 1⟩]).get? 1).map
        (fun r => r.bucket.lastRefill) = some 0 ∧
    ((redisRun none [⟨0, 10, 10, 1⟩, ⟨500, 1, 10, 1⟩, ⟨1000, 1, 10, 1⟩]).get? 1).map
        (fun r => r.bucket.lastRefill) = some 500 := by
  decide

/-- C5.  The claim says deleting a client's config invalidates the in-process
cache so the next resolution yields the default.  The DELETE handler only
calls `storage.SetClientConfig(id, 0, 0)`: with default (50,10), after setting
client "c" to (5,7) (which write-through caches it) and then deleting it, the
persistent entry is gone but `getClientConfig` still answers the stale cached
(5,7); with the cache actually invalidated (emptied) the same state would
resolve to the default (50,10). -/
theorem delete_leaves_stale_cache :
    updateClientConfig ⟨⟨50, 10⟩, []⟩ ⟨[], []⟩ "c" 5 7 =
      .ok (⟨⟨50, 10⟩, [("c", ⟨5, 7⟩)]⟩, ⟨[], [("c", ⟨5, 7⟩)]⟩) ∧
    handleDeleteClient ⟨⟨50, 10⟩, [("c", ⟨5, 7⟩)]⟩ ⟨[], [("c", ⟨5, 7⟩)]⟩ "c" =
      (⟨⟨50, 10⟩, [("c", ⟨5, 7⟩)]⟩, ⟨[], []⟩) ∧
    (getClientConfig ⟨⟨50, 10⟩, [("c", ⟨5, 7⟩)]⟩ ⟨[], []⟩ "c").1 = ⟨5, 7⟩ ∧
    ¬((⟨5, 7⟩ : ClientConfig) = ⟨50, 10⟩) ∧
    (getClientConfig ⟨⟨50, 10⟩, []⟩ ⟨[], []⟩ "c").1 = ⟨50, 10⟩ := by
  decide

/-- C6 counterexample.  The claim says that after every `take_tokens` call
`0 ≤ tokens ≤ capacity` holds for the capacity passed to that call.  In the
in-process store, a key created under capacity 10 keeps its tokens when a
later call passes capacity 5 with no elapsed time (`add = 0` skips the clamp):
after taking 1 token twice the stored count is 8 > 5. -/
theorem take_tokens_capacity_counterexample :
    ((memRun none [⟨0, 1, 10, 1⟩, ⟨0, 1, 5, 1⟩]).map fun r => r.bucket.tokens) = [9, 8] ∧
    ¬((8 : Int) ≤ 5) := by
  decide

/-- Invariant step for the in-process `TakeTokens`: a well-formed call whose
capacity dominates the incoming bound keeps the stored tokens within
`[0, capacity]`. -/
theorem memTake_bounds (c : TakeCall) (b? : Option Bucket) (bound : Int)
    (hb : ∀ b ∈ b?, 0 ≤ b.tokens ∧ b.tokens ≤ bound)
    (hcap : bound ≤ c.capacity) (hg : GoodCall c) :
    0 ≤ (memTakeTokens b? c.now c.n c.capacity c.refillRate).bucket.tokens ∧
    (memTakeTokens b? c.now c.n c.capacity c.refillRate).bucket.tokens ≤ c.capacity := by
  obtain ⟨hn, hcappos, hrate⟩ := hg
  cases b? with
  | none =>
    simp only [memTakeTokens]
    split_ifs at * <;> simp_all <;> omega
  | some b =>
    obtain ⟨hb0, hb1⟩ := hb b rfl
    simp only [memTakeTokens]
    split_ifs at * <;> simp_all <;> omega

/-- Invariant step for the Redis-script `TakeTokens`. -/
theorem redisTake_bounds (c : TakeCall) (b? : Option Bucket) (bound : Int)
    (hb : ∀ b ∈ b?, 0 ≤ b.tokens ∧ b.tokens ≤ bound)
    (hcap : bound ≤ c.capacity) (hg : GoodCall c) :
    0 ≤ (redisTakeTokens b? c.now c.n c.capacity c.refillRate).bucket.tokens ∧
    (redisTakeTokens b? c.now c.n c.capacity c.refillRate).bucket.tokens ≤ c.capacity := by
  obtain ⟨hn, hcappos, hrate⟩ := hg
  cases b? with
  | none =>
    have hfd : 0 ≤ ((max 0 (c.now - c.now)) * c.refillRate).fdiv 1000 :=
      Int.fdiv_nonneg (by positivity) (by omega)
    simp only [redisTakeTokens]
    simp_all
    omega
  | some b =>
    obtain ⟨hb0, hb1⟩ := hb b rfl
    have hfd : 0 ≤ ((max 0 (c.now - b.lastRefill)) * c.refillRate).fdiv 1000 :=
      Int.fdiv_nonneg (by positivity) (by omega)
    simp only [redisTakeTokens]
    simp_all
    omega

/-- Run-level invariant for the in-process `TakeTokens`: along any sequence of
well-formed calls with non-decreasing capacities, every call leaves the stored
tokens within `[0, capacity-of-that-call]`. -/
theorem memRun_bounds : ∀ (calls : List TakeCall) (b? : Option Bucket) (bound : Int),
    (∀ b ∈ b?, 0 ≤ b.tokens ∧ b.tokens ≤ bound) →
    CapsFrom bound calls →
    (∀ c ∈ calls, GoodCall c) →
    ∀ p ∈ (memRun b? calls).zip calls,
      0 ≤ p.1.bucket.tokens ∧ p.1.bucket.tokens ≤ p.2.capacity
  | [], _, _, _, _, _ => by intro p hp; simp [memRun] at hp
  | c :: cs, b?, bound, hb, hchain, hgood => by
    obtain ⟨hbc, hchain2⟩ := hchain
    have hstep := memTake_bounds c b? bound hb hbc (hgood c (by simp))
    intro p hp
    simp only [memRun, List.zip_cons_cons, List.mem_cons] at hp
    rcases hp with h | h
    · subst h; exact hstep
    · exact memRun_bounds cs (some (memTakeTokens b? c.now c.n c.capacity c.refillRate).bucket)
        c.capacity
        (by intro b hb2
            simp only [Option.mem_def, Option.some.injEq] at hb2
            subst hb2
            exact hstep)
        hchain2 (fun d hd => hgood d (by simp [hd])) p h

/-- Run-level invariant for the Redis-script `TakeTokens`. -/
theorem redisRun_bounds : ∀ (calls : List TakeCall) (b? : Option Bucket) (bound : Int),
    (∀ b ∈ b?, 0 ≤ b.tokens ∧ b.tokens ≤ bound) →
    CapsFrom bound calls →
    (∀ c ∈ calls, GoodCall c) →
    ∀ p ∈ (redisRun b? calls).zip calls,
      0 ≤ p.1.bucket.tokens ∧ p.1.bucket.tokens ≤ p.2.capacity
  | [], _, _, _, _, _ => by intro p hp; simp [redisRun] at hp
  | c :: cs, b?, bound, hb, hchain, hgood => by
    obtain ⟨hbc, hchain2⟩ := hchain
    have hstep := redisTake_bounds c b? bound hb hbc (hgood c (by simp))
    intro p hp
    simp only [redisRun, List.zip_cons_cons, List.mem_cons] at hp
    rcases hp with h | h
    · subst h; exact hstep
    · exact redisRun_bounds cs (some (redisTakeTokens b? c.now c.n c.capacity c.refillRate).bucket)
        c.capacity
        (by intro b hb2
            simp only [Option.mem_def, Option.some.injEq] at hb2
            subst hb2
            exact hstep)
        hchain2 (fun d hd => hgood d (by simp [hd])) p h

/-- C6 amended.  Provided every call takes `n ≥ 0` tokens with positive
capacity and non-negative refill rate, and the capacity passed for the key
never decreases across the sequence, both the in-process and the Redis-script
`take_tokens` leave the stored token count within `[0, capacity]` for the
capacity passed to each call.  (Without the non-decreasing-capacity proviso
the in-process implementation violates the bound; see the counterexample.) -/
theorem take_tokens_capacity_invariant (calls : List TakeCall)
    (hgood : ∀ c ∈ calls, GoodCall c) (hcaps : CapsFrom 0 calls) :
    (∀ p ∈ (memRun none calls).zip calls,
       0 ≤ p.1.bucket.tokens ∧ p.1.bucket.tokens ≤ p.2.capacity) ∧
    (∀ p ∈ (redisRun none calls).zip calls,
       0 ≤ p.1.bucket.tokens ∧ p.1.bucket.tokens ≤ p.2.capacity) :=
  ⟨memRun_bounds calls none 0 (by intro b hb2; simp at hb2) hcaps hgood,
   redisRun_bounds calls none 0 (by intro b hb2; simp at hb2) hcaps hgood⟩

/-- C6 witness: the amended invariant applied to a concrete two-call
sequence. -/
theorem take_tokens_capacity_witness :
    (∀ c ∈ ([⟨0, 1, 10, 1⟩, ⟨1000, 2, 10, 5⟩] : List TakeCall), GoodCall c) ∧
    CapsFrom 0 ([⟨0, 1, 10, 1⟩, ⟨1000, 2, 10, 5⟩] : List TakeCall) ∧
    ((∀ p ∈ (memRun none ([⟨0, 1, 10, 1⟩, ⟨1000, 2, 10, 5⟩] : List TakeCall)).zip
          ([⟨0, 1, 10, 1⟩, ⟨1000, 2, 10, 5⟩] : List TakeCall),
        0 ≤ p.1.bucket.tokens ∧ p.1.bucket.tokens ≤ p.2.capacity) ∧
     (∀ p ∈ (redisRun none ([⟨0, 1, 10, 1⟩, ⟨1000, 2, 10, 5⟩] : List TakeCall)).zip
          ([⟨0, 1, 10, 1⟩, ⟨1000, 2, 10, 5⟩] : List TakeCall),
        0 ≤ p.1.bucket.tokens ∧ p.1.bucket.tokens ≤ p.2.capacity)) :=
  ⟨by decide, by decide,
   take_tokens_capacity_invariant [⟨0, 1, 10, 1⟩, ⟨1000, 2, 10, 5⟩] (by decide) (by decide)⟩

/-- C8 counterexample.  The claim says the client id used for client status is
the first comma-separated entry of `X-Forwarded-For`; the ratelimit-package
`getClientIP` (the `/client-status` fallback) returns the entire header value
instead: for `X-Forwarded-For: 10.0.0.1, 10.0.0.2` it yields
"10.0.0.1, 10.0.0.2", not "10.0.0.1" (which the proxy-package helper does
yield). -/
theorem client_status_ip_counterexample :
    ratelimitGetClientIP ⟨"10.0.0.1, 10.0.0.2", "", "9.9.9.9:123"⟩ = "10.0.0.1, 10.0.0.2" ∧
    ¬("10.0.0.1, 10.0.0.2" = "10.0.0.1") ∧
    proxyGetClientIP ⟨"10.0.0.1, 10.0.0.2", "", "9.9.9.9:123"⟩ = "10.0.0.1" := by
  decide

/-- C8 amended.  The proxy's rate-limit path derives the client id exactly as
the claim states (first comma-separated entry of `X-Forwarded-For`, else
`X-Real-IP`, else the remote host); the `/client-status` fallback agrees
whenever `X-Forwarded-For` is absent, but uses the entire header value when
it is present. -/
theorem client_ip_extraction_amended :
    (∀ r : Request, proxyGetClientIP r = specClientId r) ∧
    (∀ r : Request, r.xff = "" → ratelimitGetClientIP r = specClientId r) ∧
    (∀ r : Request, ¬(r.xff = "") → ratelimitGetClientIP r = r.xff) := by
  refine ⟨fun r => rfl, fun r h => ?_, fun r h => ?_⟩
  · simp [ratelimitGetClientIP, specClientId, h]
  · simp [ratelimitGetClientIP, h]

/-- C8 witness: the amended statement applied to concrete requests covering
the `X-Real-IP` fallback and the whole-header behavior. -/
theorem client_ip_extraction_witness :
    proxyGetClientIP ⟨"", "7.7.7.7", "9.9.9.9:123"⟩ = specClientId ⟨"", "7.7.7.7", "9.9.9.9:123"⟩ ∧
    ratelimitGetClientIP ⟨"", "7.7.7.7", "9.9.9.9:123"⟩ =
      specClientId ⟨"", "7.7.7.7", "9.9.9.9:123"⟩ ∧
    ratelimitGetClientIP ⟨"a, b", "", ""⟩ = "a, b" :=
  ⟨client_ip_extraction_amended.1 ⟨"", "7.7.7.7", "9.9.9.9:123"⟩,
   client_ip_extraction_amended.2.1 ⟨"", "7.7.7.7", "9.9.9.9:123"⟩ (by decide),
   client_ip_extraction_amended.2.2 ⟨"a, b", "", ""⟩ (by decide)⟩

/-- `find?` only depends on the predicate's values on the list's members. -/
theorem list_find?_congr {α : Type} {p q : α → Bool} :
    ∀ {l : List α}, (∀ x ∈ l, p x = q x) → l.find? p = l.find? q := by
  intro l
  induction l with
  | nil => intro _; rfl
  | cons a l ih =>
    intro h
    have ha := h a (by simp)
    cases hq : q a with
    | true => rw [List.find?_cons_of_pos _ (ha.trans hq), List.find?_cons_of_pos _ hq]
    | false =>
      rw [List.find?_cons_of_neg _ (by simp [ha, hq]), List.find?_cons_of_neg _ (by simp [hq])]
      exact ih (fun x hx => h x (by simp [hx]))

/-- The strict-compare running minimum of the least-connections scan returns
the first element of the snapshot attaining the minimum `activeConns`. -/
theorem lcFold_eq_find? :
    ∀ (rest : List LCBackend) (b0 : LCBackend),
      some (rest.foldl (fun best b => if b.activeConns < best.activeConns then b else best) b0) =
        (b0 :: rest).find? (isMinIn (b0 :: rest))
  | [], b0 => by simp [isMinIn]
  | b :: rest, b0 => by
    rw [List.foldl_cons]
    by_cases hlt : b.activeConns < b0.activeConns
    · rw [if_pos hlt, lcFold_eq_find? rest b]
      have hb0 : ¬(isMinIn (b0 :: b :: rest) b0 = true) := by
        simp only [isMinIn, List.all_cons, Bool.and_eq_true, decide_eq_true_eq]
        intro h
        have := h.2.1
        omega
      rw [@List.find?_cons_of_neg _ (isMinIn (b0 :: b :: rest)) b0 (b :: rest) hb0]
      refine list_find?_congr ?_
      intro x hx
      by_cases hxb : x.activeConns ≤ b.activeConns
      · have hxb0 : x.activeConns ≤ b0.activeConns := by omega
        simp [isMinIn, List.all_cons, hxb, hxb0]
      · simp [isMinIn, List.all_cons, hxb]
    · rw [if_neg hlt, lcFold_eq_find? rest b0]
      have hble : b0.activeConns ≤ b.activeConns := by omega
      by_cases hall : rest.all (fun c => decide (b0.activeConns ≤ c.activeConns)) = true
      · have h1 : isMinIn (b0 :: rest) b0 = true := by
          simp only [isMinIn, List.all_cons, Bool.and_eq_true, decide_eq_true_eq]
          exact ⟨le_refl _, hall⟩
        have h2 : isMinIn (b0 :: b :: rest) b0 = true := by
          simp only [isMinIn, List.all_cons, Bool.and_eq_true, decide_eq_true_eq]
          exact ⟨le_refl _, hble, hall⟩
        rw [@List.find?_cons_of_pos _ (isMinIn (b0 :: rest)) b0 rest h1,
          @List.find?_cons_of_pos _ (isMinIn (b0 :: b :: rest)) b0 (b :: rest) h2]
      · have hallf : ¬(rest.all (fun c => decide (b0.activeConns ≤ c.activeConns)) = true) := hall
        have h1 : ¬(isMinIn (b0 :: rest) b0 = true) := by
          simp only [isMinIn, List.all_cons, Bool.and_eq_true, decide_eq_true_eq]
          intro h
          exact hallf h.2
        have h2 : ¬(isMinIn (b0 :: b :: rest) b0 = true) := by
          simp only [isMinIn, List.all_cons, Bool.and_eq_true, decide_eq_true_eq]
          intro h
          exact hallf h.2.2
        rw [@List.find?_cons_of_neg _ (isMinIn (b0 :: rest)) b0 rest h1,
          @List.find?_cons_of_neg _ (isMinIn (b0 :: b :: rest)) b0 (b :: rest) h2]
        have hbskip : ¬(isMinIn (b0 :: b :: rest) b = true) := by
          by_cases heq : b.activeConns ≤ b0.activeConns
          · have hba : b.activeConns = b0.activeConns := le_antisymm heq hble
            simp only [isMinIn, List.all_cons, Bool.and_eq_true, decide_eq_true_eq]
            intro h
            apply hallf
            have h3 := h.2.2
            rw [hba] at h3
            exact h3
          · simp only [isMinIn, List.all_cons, Bool.and_eq_true, decide_eq_true_eq]
            intro h
            exact heq h.1
        rw [@List.find?_cons_of_neg _ (isMinIn (b0 :: b :: rest)) b rest hbskip]
        refine list_find?_congr ?_
        intro x hx
        by_cases hxb0 : x.activeConns ≤ b0.activeConns
        · have hxb : x.activeConns ≤ b.activeConns := by omega
          simp [isMinIn, List.all_cons, hxb0, hxb]
        · simp [isMinIn, List.all_cons, hxb0]

/-- C9.  For every non-empty healthy snapshot, the least-connections
`NextBackend` returns exactly the first backend of the snapshot whose
`ActiveConns` is minimal over the snapshot (spec: minimum with ties broken by
first occurrence in registration order). -/
theorem least_connections_picks_first_min (healthy : List LCBackend) (hne : healthy ≠ []) :
    lcNextBackend healthy = healthy.find? (isMinIn healthy) := by
  cases healthy with
  | nil => exact absurd rfl hne
  | cons b0 rest => simpa [lcNextBackend] using lcFold_eq_find? rest b0

/-- C9 witness: the theorem applied to the spec's example counts
A:5, B:2, C:10 (returns B) and then A:1, B:3, C:10 (returns A). -/
theorem least_connections_witness :
    lcNextBackend [⟨"A", 5⟩, ⟨"B", 2⟩, ⟨"C", 10⟩] = some ⟨"B", 2⟩ ∧
    lcNextBackend [⟨"A", 1⟩, ⟨"B", 3⟩, ⟨"C", 10⟩] = some ⟨"A", 1⟩ :=
  ⟨(least_connections_picks_first_min [⟨"A", 5⟩, ⟨"B", 2⟩, ⟨"C", 10⟩] (by decide)).trans
      (by decide),
   (least_connections_picks_first_min [⟨"A", 1⟩, ⟨"B", 3⟩, ⟨"C", 10⟩] (by decide)).trans
      (by decide)⟩

/-- The factory's construction loop equals `filterMap` over the parse oracle:
invalid URLs are skipped, valid ones kept in configuration order. -/
theorem factoryBackends_eq_filterMap (parse : String → Option String) :
    ∀ urls : List String, factoryBackends parse urls = urls.filterMap parse := by
  intro urls
  induction urls with
  | nil => rfl
  | cons u rest ih =>
    cases hu : parse u <;> simp [factoryBackends, List.filterMap_cons, hu, ih]

/-- C10.  `BalancerFactory` registers exactly the configured backends whose
URL parses, in configuration order, and fails with `ErrNoValidBackends`
precisely when every configured URL fails to parse; hence a configuration
mixing valid and invalid URLs succeeds with only the valid ones registered. -/
theorem balancer_factory_skips_invalid (parse : String → Option String)
    (urls : List String) (algorithm : String) :
    factoryBackends parse urls = urls.filterMap parse ∧
    (balancerFactory parse urls algorithm = .noValidBackends ↔ ∀ u ∈ urls, parse u = none) ∧
    (¬(∀ u ∈ urls, parse u = none) →
      balancerFactory parse urls algorithm =
        .ok (algorithmName algorithm) (urls.filterMap parse)) := by
  have hfb := factoryBackends_eq_filterMap parse urls
  have hiff : (urls.filterMap parse).isEmpty = true ↔ ∀ u ∈ urls, parse u = none := by
    rw [List.isEmpty_iff]
    exact List.filterMap_eq_nil_iff
  refine ⟨hfb, ?_, ?_⟩
  · unfold balancerFactory
    rw [hfb]
    by_cases h : (urls.filterMap parse).isEmpty = true
    · rw [if_pos h]
      exact ⟨fun _ => hiff.mp h, fun _ => rfl⟩
    · rw [if_neg h]
      constructor
      · intro hcontra
        exact absurd hcontra (by simp)
      · intro hall
        exact absurd (hiff.mpr hall) h
  · intro hsome
    unfold balancerFactory
    rw [hfb, if_neg (fun h => hsome (hiff.mp h))]

/-- C10 witness: the factory applied to a configuration mixing valid and
invalid URLs starts with the valid ones only. -/
theorem balancer_factory_witness :
    balancerFactory (fun u => if u = "bad" then none else some u)
        ["http://a", "bad", "http://b"] "round_robin" =
      .ok (algorithmName "round_robin")
        (["http://a", "bad", "http://b"].filterMap
          (fun u => if u = "bad" then none else some u)) ∧
    ["http://a", "bad", "http://b"].filterMap (fun u => if u = "bad" then none else some u) =
      ["http://a", "http://b"] :=
  ⟨(balancer_factory_skips_invalid (fun u => if u = "bad" then none else some u)
      ["http://a", "bad", "http://b"] "round_robin").2.2 (by decide),
   by decide⟩

/-- `int64Wrap` is the identity on the int64 range. -/
theorem int64Wrap_eq_self (x : Int) (hlo : -(2 ^ 63) ≤ x) (hhi : x < 2 ^ 63) :
    int64Wrap x = x := by
  unfold int64Wrap
  rw [Int.emod_eq_of_lt (by omega) (by omega)]
  omega

/-- One round-robin step, away from cursor overflow: increment the cursor and
select index `(cursor + 1) mod k`. -/
theorem rrNextBackend_eq (healthy : List String) (cur : Int) (hne : healthy ≠ [])
    (h0 : 0 ≤ cur) (hub : cur + 1 < 2 ^ 63) :
    rrNextBackend healthy cur =
      (healthy.get? ((cur.toNat + 1) % healthy.length), cur + 1) := by
  unfold rrNextBackend
  rw [if_neg (by simpa [List.isEmpty_iff] using hne)]
  have hk : 0 < healthy.length := List.length_pos.mpr hne
  have hw : int64Wrap (cur + 1) = cur + 1 := int64Wrap_eq_self _ (by omega) hub
  have htm : (cur + 1).tmod (healthy.length : Int) =
      (((cur.toNat + 1) % healthy.length : Nat) : Int) := by
    rw [Int.tmod_eq_emod (by omega) (by positivity)]
    have hcur : cur = (cur.toNat : Int) := by omega
    rw [hcur]
    norm_cast
  simp only [hw, htm]
  rw [if_pos (by positivity)]
  rw [Int.toNat_ofNat]

/-- Characterization of `n` consecutive round-robin calls, away from cursor
overflow: the selected sequence is determined by the starting cursor, namely
index `(cursor + 1 + i) mod k` on the `i`-th call. -/
theorem rrCalls_eq (healthy : List String) (hne : healthy ≠ []) :
    ∀ (n : Nat) (cur : Int), 0 ≤ cur → cur + n < 2 ^ 63 →
      rrCalls healthy n cur =
        ((List.range n).map (fun i => healthy.get? ((cur.toNat + 1 + i) % healthy.length)),
          cur + n)
  | 0, cur, _, _ => by simp [rrCalls]
  | n + 1, cur, h0, hub => by
    have hstep := rrNextBackend_eq healthy cur hne h0 (by push_cast at hub; omega)
    have hrec := rrCalls_eq healthy hne n (cur + 1) (by omega) (by push_cast at hub ⊢; omega)
    simp only [rrCalls, hstep, hrec]
    have htn : (cur + 1).toNat = cur.toNat + 1 := by omega
    refine Prod.ext ?_ (by push_cast; omega)
    simp only [List.range_succ_eq_map, List.map_cons, List.map_map]
    congr 1
    refine List.map_congr_left ?_
    intro i _
    simp only [Function.comp, Nat.succ_eq_add_one]
    rw [htn]
    have h9 : cur.toNat + 1 + 1 + i = cur.toNat + 1 + (i + 1) := by omega
    rw [h9]

/-- Each residue `j < k` occurs exactly once among `(c0 + i) % k` for
`i < k`. -/
theorem block_count (c0 k j : Nat) (hk : 0 < k) (hj : j < k) :
    ((List.range k).map (fun i => (c0 + i) % k)).count j = 1 := by
  have hnd : ((List.range k).map (fun i => (c0 + i) % k)).Nodup := by
    refine List.Nodup.map_on ?_ (List.nodup_range k)
    intro i hi i2 hi2 heq
    rw [List.mem_range] at hi hi2
    have h2 : Nat.ModEq k (c0 + i) (c0 + i2) := heq
    have h3 : Nat.ModEq k i i2 := Nat.ModEq.add_left_cancel' c0 h2
    have h4 : i % k = i2 % k := h3
    rwa [Nat.mod_eq_of_lt hi, Nat.mod_eq_of_lt hi2] at h4
  have hmem : j ∈ (List.range k).map (fun i => (c0 + i) % k) := by
    rw [List.mem_map]
    refine ⟨(j + (k - c0 % k)) % k, by rw [List.mem_range]; exact Nat.mod_lt _ hk, ?_⟩
    have hr : c0 % k < k := Nat.mod_lt _ hk
    have hqr : c0 / k * k + c0 % k = c0 := by
      have h5 := Nat.div_add_mod c0 k
      rw [Nat.mul_comm k (c0 / k)] at h5
      exact h5
    rw [Nat.add_mod_mod]
    have h4 : c0 + (j + (k - c0 % k)) = j + (c0 / k + 1) * k := by
      rw [Nat.add_mul, Nat.one_mul]
      omega
    rw [h4, Nat.add_mul_mod_self_right]
    exact Nat.mod_eq_of_lt hj
  exact List.count_eq_one_of_mem hnd hmem

/-- Each residue `j < k` occurs exactly `m` times among `(c0 + i) % k` for
`i < k * m`. -/
theorem multi_count (c0 k j : Nat) (hk : 0 < k) (hj : j < k) :
    ∀ m : Nat, ((List.range (k * m)).map (fun i => (c0 + i) % k)).count j = m
  | 0 => by simp
  | m + 1 => by
    have h1 : k * (m + 1) = k * m + k := by ring
    rw [h1, List.range_add, List.map_append, List.count_append, multi_count c0 k j hk hj m]
    have h2 : (List.range k).map ((fun i => (c0 + i) % k) ∘ (k * m + ·)) =
        (List.range k).map (fun i => (c0 + i) % k) := by
      refine List.map_congr_left ?_
      intro i _
      simp only [Function.comp]
      have h3 : c0 + (k * m + i) = c0 + i + m * k := by ring
      rw [h3, Nat.add_mul_mod_self_right]
    rw [List.map_map, h2, block_count c0 k j hk hj]

/-- C7.  Over a stable healthy snapshot of size `k` with distinct backends,
starting from any cursor in the int64 range with no overflow across the
window, `k * m` consecutive `NextBackend` calls follow the deterministic
sequence `healthy[(cursor + 1 + i) mod k]` and return every backend of the
snapshot exactly `m` times. -/
theorem round_robin_fair_distribution (healthy : List String) (m : Nat) (cur : Int)
    (hne : healthy ≠ []) (hnd : healthy.Nodup) (h0 : 0 ≤ cur)
    (hub : cur + healthy.length * m < 2 ^ 63) :
    (rrCalls healthy (healthy.length * m) cur).1 =
      (List.range (healthy.length * m)).map
        (fun i => healthy.get? ((cur.toNat + 1 + i) % healthy.length)) ∧
    ∀ b ∈ healthy, (rrCalls healthy (healthy.length * m) cur).1.count (some b) = m := by
  have hk : 0 < healthy.length := List.length_pos.mpr hne
  have hchar := rrCalls_eq healthy hne (healthy.length * m) cur h0 hub
  refine ⟨by rw [hchar], ?_⟩
  intro b hb
  rw [hchar]
  have hmm : (List.range (healthy.length * m)).map
      (fun i => healthy.get? ((cur.toNat + 1 + i) % healthy.length)) =
      ((List.range (healthy.length * m)).map
        (fun i => (cur.toNat + 1 + i) % healthy.length)).map healthy.get? := by
    rw [List.map_map]
    rfl
  rw [hmm, List.count_eq_countP, List.countP_map]
  obtain ⟨⟨j, hj⟩, hget⟩ := List.mem_iff_get.mp hb
  have hcount := multi_count (cur.toNat + 1) healthy.length j hk hj m
  rw [List.count_eq_countP] at hcount
  refine Eq.trans (List.countP_congr ?_) hcount
  intro x hx
  rw [List.mem_map] at hx
  obtain ⟨i, _, hxe⟩ := hx
  have hxk : x < healthy.length := by rw [← hxe]; exact Nat.mod_lt _ hk
  simp only [Function.comp, beq_iff_eq]
  constructor
  · intro hsome
    rw [List.get?_eq_get hxk] at hsome
    have hxb : healthy.get ⟨x, hxk⟩ = healthy.get ⟨j, hj⟩ := by
      rw [hget]
      exact Option.some_inj.mp hsome
    have h6 := (List.Nodup.get_inj_iff hnd).mp hxb
    exact congrArg Fin.val h6
  · intro hxj
    subst hxj
    rw [List.get?_eq_get hj, hget]

/-- C7 witness: three distinct backends, starting cursor 0, nine calls —
each backend is selected exactly three times. -/
theorem round_robin_witness :
    (["A", "B", "C"] : List String) ≠ [] ∧ (["A", "B", "C"] : List String).Nodup ∧
    (0 : Int) ≤ 0 ∧ (0 : Int) + (["A", "B", "C"] : List String).length * 3 < 2 ^ 63 ∧
    ∀ b ∈ (["A", "B", "C"] : List String),
      (rrCalls ["A", "B", "C"] ((["A", "B", "C"] : List String).length * 3) 0).1.count
        (some b) = 3 :=
  ⟨by decide, by decide, by decide, by norm_num,
   (round_robin_fair_distribution ["A", "B", "C"] 3 0 (by decide) (by decide) (by decide)
      (by norm_num)).2⟩

end LB
